import Mathlib

/-!
Verification development for the besedarium session-type library.

The library is type-level Rust: protocols are types and every check is a
trait whose impls the compiler's trait solver resolves.  The shallow
embedding below renders each trait as an inductive predicate with one
constructor per impl, so that a proposition `Trait args` is provable
exactly when the corresponding Rust trait goal is derivable from the
impls.  Protocol trees (`TSession`, the global combinators of
src/protocol/global.rs and src/lib.rs) and endpoint trees (`EpSession`,
src/protocol/local.rs) become ordinary inductive types.

Modelling notes:
  - The `IO` transport marker is a phantom parameter carried unchanged by
    every type and impl; it never influences resolution, so it is elided.
  - Roles, labels and messages are user-supplied marker types; they are
    modelled by small inductive types with decidable equality.  `RoleEq`
    is modelled as propositional equality, per its documented contract
    (Output = True for the same role, False for different roles).
  - The `IsDisjoint` brand of `TPar` is modelled as `Bool`
    (`FalseB`/`TrueB`); the unverified/verified marker types.
  - `TSend`/`TRecv` appear only in one module snapshot and in no claim;
    they are omitted from the tree type.
-/

namespace Besedarium

/-- Protocol labels: the `EmptyLabel` placeholder plus user labels. -/
inductive RLabel : Type
  | empty : RLabel
  | mk (n : Nat) : RLabel
deriving DecidableEq

/-- Protocol participant roles (user-declared marker types). -/
inductive RRole : Type
  | mk (n : Nat) : RRole
deriving DecidableEq

/-- Message marker types. -/
inductive RMsg : Type
  | mk (n : Nat) : RMsg
deriving DecidableEq

/-- Global session trees: `TEnd`, `TInteract`, `TChoice`, `TPar`, `TRec`
(src/protocol/global.rs, src/lib.rs).  The Bool on `tPar` is the
`IsDisjoint` brand (`FalseB`/`TrueB`). -/
inductive TSession : Type
  | tEnd (lbl : RLabel) : TSession
  | tInteract (lbl : RLabel) (r : RRole) (h : RMsg) (t : TSession) : TSession
  | tChoice (lbl : RLabel) (l r : TSession) : TSession
  | tPar (lbl : RLabel) (l r : TSession) (isDisjoint : Bool) : TSession
  | tRec (lbl : RLabel) (s : TSession) : TSession
deriving DecidableEq

/-- Local (endpoint) session trees, with labels: `EpEnd`, `EpSend`,
`EpRecv`, `EpChoice`, `EpPar`, `EpSkip` (src/protocol/local.rs). -/
inductive EpSession : Type
  | epEnd (lbl : RLabel) (r : RRole) : EpSession
  | epSend (lbl : RLabel) (r : RRole) (h : RMsg) (t : EpSession) : EpSession
  | epRecv (lbl : RLabel) (r : RRole) (h : RMsg) (t : EpSession) : EpSession
  | epChoice (lbl : RLabel) (me : RRole) (l r : EpSession) : EpSession
  | epPar (lbl : RLabel) (me : RRole) (l r : EpSession) : EpSession
  | epSkip (lbl : RLabel) (r : RRole) : EpSession
deriving DecidableEq

/-- Trait `NotTypeEq` (src/lib.rs:738-740, src/protocol/base.rs:69-72).
The source has the single blanket impl `impl<A, B> NotTypeEq<B> for A {}`,
which also covers the case A = B (the comment next to it claims the
diagonal is excluded, but Rust has no negative impls: the blanket impl
matches every pair).  Embedded faithfully: one constructor for all pairs. -/
inductive NotTypeEq {α : Type} : α → α → Prop
  | intro {a b : α} : NotTypeEq a b

/-- Trait `NotSame` (src/lib.rs:734-735, base.rs:63-65): holds whenever
`NotTypeEq` does. -/
inductive NotSame {α : Type} : α → α → Prop
  | intro {a b : α} : NotTypeEq a b → NotSame a b

/-- Trait `NotInList<X> for list` (src/lib.rs:724-731, base.rs:52-60):
`Nil` always; `Cons<H,T>` when `X: NotSame<H>` and `T: NotInList<X>`.
First argument is the element X, second the list. -/
inductive NotInList {α : Type} : α → List α → Prop
  | nil {x : α} : NotInList x []
  | cons {x h : α} {t : List α} : NotSame x h → NotInList x t → NotInList x (h :: t)

/-- Trait `UniqueList` (src/lib.rs:742-745, base.rs:46-49): `Nil` always;
`Cons<H,T>` when `T: NotInList<H>` and `T: UniqueList`. -/
inductive UniqueList {α : Type} : List α → Prop
  | nil : UniqueList []
  | cons {h : α} {t : List α} : NotInList h t → UniqueList t → UniqueList (h :: t)

/-- Trait `NotContains<X> for list` (src/lib.rs:386-388): `Nil` always;
`Cons<H,T>` when `T: NotContains<X>`.  Note the source compares nothing
against the head H.  First argument is the list, second the element X. -/
inductive NotContains {α : Type} : List α → α → Prop
  | nil {x : α} : NotContains [] x
  | cons {x h : α} {t : List α} : NotContains t x → NotContains (h :: t) x

/-- Trait `Disjoint<A, B> for ()` (src/lib.rs:390-397): `Nil` is disjoint
from anything; `Cons<H,T>` is disjoint from B when `B: NotContains<H>`
and `(): Disjoint<T, B>`. -/
inductive Disjoint {α : Type} : List α → List α → Prop
  | nil {b : List α} : Disjoint [] b
  | cons {h : α} {t b : List α} : NotContains b h → Disjoint t b → Disjoint (h :: t) b

mutual
/-- Trait `Disjoint<L, R> for ()` of src/protocol/utils.rs:21-63
(the dispatching variant): the `Nil` base case, and the `Cons` case
routed through `DisjointCons` with `CheckNil` dispatch on R. -/
inductive UtilsDisjoint {α : Type} : List α → List α → Prop
  | nil {r : List α} : UtilsDisjoint [] r
  | cons {h : α} {l r : List α} : UtilsDisjointCons h l r → UtilsDisjoint (h :: l) r

/-- Helper trait `DisjointCons<H, L, R, IsRNil>` (utils.rs:44-55): when R
is `Nil` it holds outright; when R is `Cons` it needs `R: NotInList<H>`
and `(): Disjoint<L, R>`. -/
inductive UtilsDisjointCons {α : Type} : α → List α → List α → Prop
  | rnil {h : α} {l : List α} : UtilsDisjointCons h l []
  | rcons {h rh : α} {l rt : List α} :
      NotInList h (rh :: rt) → UtilsDisjoint l (rh :: rt) →
      UtilsDisjointCons h l (rh :: rt)
end

/-- Trait `RolesOf` (src/lib.rs:344-365).  The `TEnd` impl is written
`impl<IO> RolesOf for TEnd<IO>`, i.e. only for the default label
`EmptyLabel`.  `TChoice`/`TPar` take the left branch's roles only (the
right branch is not even required to implement `RolesOf`); `TRec`
passes through to its body. -/
inductive RolesOf : TSession → List RRole → Prop
  | tEnd : RolesOf (.tEnd RLabel.empty) []
  | tInteract {lbl : RLabel} {r : RRole} {h : RMsg} {t : TSession} {rs : List RRole} :
      RolesOf t rs → RolesOf (.tInteract lbl r h t) (r :: rs)
  | tChoice {lbl : RLabel} {l rb : TSession} {rs : List RRole} :
      RolesOf l rs → RolesOf (.tChoice lbl l rb) rs
  | tPar {lbl : RLabel} {l rb : TSession} {d : Bool} {rs : List RRole} :
      RolesOf l rs → RolesOf (.tPar lbl l rb d) rs
  | tRec {lbl : RLabel} {s : TSession} {rs : List RRole} :
      RolesOf s rs → RolesOf (.tRec lbl s) rs

/-- Trait `LabelsOf` (src/lib.rs:678-718).  `TEnd<IO, L>` yields the
singleton of its label (any label); `TInteract`/`TRec` prepend their
label to the continuation's/body's labels; `TChoice`/`TPar` require both
branches to implement `LabelsOf` but use only the left branch's labels,
prefixed by their own label. -/
inductive LabelsOf : TSession → List RLabel → Prop
  | tEnd {lbl : RLabel} : LabelsOf (.tEnd lbl) [lbl]
  | tInteract {lbl : RLabel} {r : RRole} {h : RMsg} {t : TSession} {ls : List RLabel} :
      LabelsOf t ls → LabelsOf (.tInteract lbl r h t) (lbl :: ls)
  | tChoice {lbl : RLabel} {l rb : TSession} {ls ls' : List RLabel} :
      LabelsOf l ls → LabelsOf rb ls' → LabelsOf (.tChoice lbl l rb) (lbl :: ls)
  | tPar {lbl : RLabel} {l rb : TSession} {d : Bool} {ls ls' : List RLabel} :
      LabelsOf l ls → LabelsOf rb ls' → LabelsOf (.tPar lbl l rb d) (lbl :: ls)
  | tRec {lbl : RLabel} {s : TSession} {ls : List RLabel} :
      LabelsOf s ls → LabelsOf (.tRec lbl s) (lbl :: ls)

/-- Trait `AssertDisjoint` (src/lib.rs:411-424).  Exactly two impls, both
for `TPar<IO, EmptyLabel, L, R, _>`: the `FalseB` one demands `RolesOf`
on both branches and `Disjoint` in both directions and rebrands the node
with `TrueB`; the `TrueB` one returns the node unchanged. -/
inductive AssertDisjoint : TSession → TSession → Prop
  | verify {l r : TSession} {rl rr : List RRole} :
      RolesOf l rl → RolesOf r rr → Disjoint rl rr → Disjoint rr rl →
      AssertDisjoint (.tPar RLabel.empty l r false) (.tPar RLabel.empty l r true)
  | already {l r : TSession} :
      AssertDisjoint (.tPar RLabel.empty l r true) (.tPar RLabel.empty l r true)

/-- Trait `ContainsRole<R>` (src/protocol/transforms.rs:236-350): the
role-presence predicate used by projection.  `TEnd` contains no role;
`TInteract` is always `True` (over-approximation, provided the
continuation also resolves `ContainsRole`); `TChoice` and `TPar` are the
OR of their branches (`TPar` via `TParContainsRoleImpl`, whose four
cases compute boolean OR).  There is no impl for `TRec`. -/
inductive ContainsRole : TSession → RRole → Bool → Prop
  | tEnd {lbl : RLabel} {me : RRole} : ContainsRole (.tEnd lbl) me false
  | interact {lbl : RLabel} {r me : RRole} {h : RMsg} {t : TSession} {bt : Bool} :
      ContainsRole t me bt → ContainsRole (.tInteract lbl r h t) me true
  | choice {lbl : RLabel} {l r : TSession} {me : RRole} {bl br : Bool} :
      ContainsRole l me bl → ContainsRole r me br →
      ContainsRole (.tChoice lbl l r) me (bl || br)
  | par {lbl : RLabel} {l r : TSession} {d : Bool} {me : RRole} {bl br : Bool} :
      ContainsRole l me bl → ContainsRole r me br →
      ContainsRole (.tPar lbl l r d) me (bl || br)

/-- Trait `ProjectRole<Me, IO, G>` (src/protocol/transforms.rs:57-59 and
its impls): global-to-local projection.  `TEnd` maps to `EpEnd` with the
label preserved; `TInteract` dispatches on `RoleEq` (`EpSend` for the
owner, `EpRecv` otherwise), both recursing into the continuation with
the label preserved; `TChoice` dispatches through `ProjectChoiceCase`
on `ContainsRole` of the two branches (transforms.rs:163-234); `TPar`
dispatches through `ProjectParCase` (transforms.rs:746-809).  There is
no impl for `TRec`. -/
inductive ProjectRole : RRole → TSession → EpSession → Prop
  | tEnd {me : RRole} {lbl : RLabel} :
      ProjectRole me (.tEnd lbl) (.epEnd lbl me)
  | interactSend {me : RRole} {lbl : RLabel} {h : RMsg} {t : TSession} {out : EpSession} :
      ProjectRole me t out →
      ProjectRole me (.tInteract lbl me h t) (.epSend lbl me h out)
  | interactRecv {me r : RRole} {lbl : RLabel} {h : RMsg} {t : TSession} {out : EpSession} :
      me ≠ r → ProjectRole me t out →
      ProjectRole me (.tInteract lbl r h t) (.epRecv lbl me h out)
  | choiceTT {me : RRole} {lbl : RLabel} {l r : TSession} {ol orr : EpSession} :
      ContainsRole l me true → ContainsRole r me true →
      ProjectRole me l ol → ProjectRole me r orr →
      ProjectRole me (.tChoice lbl l r) (.epChoice lbl me ol orr)
  | choiceTF {me : RRole} {lbl : RLabel} {l r : TSession} {ol : EpSession} :
      ContainsRole l me true → ContainsRole r me false →
      ProjectRole me l ol →
      ProjectRole me (.tChoice lbl l r) (.epChoice lbl me ol (.epSkip lbl me))
  | choiceFT {me : RRole} {lbl : RLabel} {l r : TSession} {orr : EpSession} :
      ContainsRole l me false → ContainsRole r me true →
      ProjectRole me r orr →
      ProjectRole me (.tChoice lbl l r) (.epChoice lbl me (.epSkip lbl me) orr)
  | choiceFF {me : RRole} {lbl : RLabel} {l r : TSession} :
      ContainsRole l me false → ContainsRole r me false →
      ProjectRole me (.tChoice lbl l r) (.epSkip lbl me)
  | parTT {me : RRole} {lbl : RLabel} {l r : TSession} {d : Bool} {ol orr : EpSession} :
      ContainsRole l me true → ContainsRole r me true →
      ProjectRole me l ol → ProjectRole me r orr →
      ProjectRole me (.tPar lbl l r d) (.epPar lbl me ol orr)
  | parTF {me : RRole} {lbl : RLabel} {l r : TSession} {d : Bool} {ol : EpSession} :
      ContainsRole l me true → ContainsRole r me false →
      ProjectRole me l ol →
      ProjectRole me (.tPar lbl l r d) ol
  | parFT {me : RRole} {lbl : RLabel} {l r : TSession} {d : Bool} {orr : EpSession} :
      ContainsRole l me false → ContainsRole r me true →
      ProjectRole me r orr →
      ProjectRole me (.tPar lbl l r d) orr
  | parFF {me : RRole} {lbl : RLabel} {l r : TSession} {d : Bool} :
      ContainsRole l me false → ContainsRole r me false →
      ProjectRole me (.tPar lbl l r d) (.epSkip lbl me)

/-- Trait `ToTChoice` (src/lib.rs:451-459): folds a type-level list into
nested binary `TChoice` nodes labelled `EmptyLabel`, `Nil` mapping to
`TEnd<IO>` (= `TEnd` with `EmptyLabel`). -/
def toTChoice : List TSession → TSession
  | [] => .tEnd RLabel.empty
  | h :: t => .tChoice RLabel.empty h (toTChoice t)

/-- Trait `ToTPar` (src/lib.rs:461-469): same fold into `TPar` nodes with
the `FalseB` brand. -/
def toTPar : List TSession → TSession
  | [] => .tEnd RLabel.empty
  | h :: t => .tPar RLabel.empty h (toTPar t) false

/-- Concrete role `TClient` of the examples/tests. -/
def TClient : RRole := .mk 0

/-- Concrete role `TServer` of the examples/tests. -/
def TServer : RRole := .mk 1

/-- Concrete test role `Alice` (tests/label_preservation_tests.rs). -/
def Alice : RRole := .mk 2

/-- Concrete test role `Bob` (tests/label_preservation_tests.rs). -/
def Bob : RRole := .mk 3

/-- Concrete test label `TestLabel1`. -/
def TestLabel1 : RLabel := .mk 1

/-- Concrete test label `TestLabel2`. -/
def TestLabel2 : RLabel := .mk 2

/-- Concrete test label `TestLabel3`. -/
def TestLabel3 : RLabel := .mk 3

/-- Concrete message type `Message`. -/
def Message : RMsg := .mk 0

/-- Concrete message type `Response`. -/
def Response : RMsg := .mk 1

/-- The presence predicate is deterministic: a tree resolves
`ContainsRole` to at most one boolean for a given role. -/
theorem containsRole_det {t : TSession} {me : RRole} {b₁ b₂ : Bool}
    (h₁ : ContainsRole t me b₁) (h₂ : ContainsRole t me b₂) : b₁ = b₂ := by
  induction h₁ generalizing b₂ with
  | tEnd => cases h₂; rfl
  | interact _ _ => cases h₂; rfl
  | choice _ _ ihl ihr =>
      cases h₂ with
      | choice hl hr => rw [ihl hl, ihr hr]
  | par _ _ ihl ihr =>
      cases h₂ with
      | par hl hr => rw [ihl hl, ihr hr]

/-- C1: the disjointness check is vacuous.  Both the `Disjoint` trait of
src/lib.rs (via `NotContains`, which never compares the head element)
and the `Disjoint` trait of src/protocol/utils.rs (via `NotInList`,
whose `NotSame`/`NotTypeEq` premises hold for every pair because
`NotTypeEq` is a blanket impl) are derivable for the overlapping lists
`[TClient]` and `[TClient]`, although `TClient` occurs in both, so the
claim that the check fails whenever an element of A occurs in B is
contradicted by the code at this input. -/
theorem C1_disjoint_accepts_overlap :
    Disjoint [TClient] [TClient] ∧ UtilsDisjoint [TClient] [TClient] ∧
      TClient ∈ [TClient] :=
  ⟨.cons (.cons .nil) .nil,
   .cons (.rcons (.cons (.intro .intro) .nil) .nil),
   by simp⟩

/-- C2: the uniqueness check is vacuous.  The label sequence extracted
from the duplicate-label tree of tests/trybuild/duplicate_labels_choice.rs
(a `TChoice` labelled `TestLabel1` whose two `TInteract` branches are both
labelled `TestLabel1`) repeats `TestLabel1`, yet `UniqueList` is
derivable for it, because `NotInList`/`NotSame` rest on the blanket
`NotTypeEq` impl that also covers equal types.  So `assert_unique_labels`
accepts a tree with repeated labels, contradicting the claim. -/
theorem C2_uniqueList_accepts_duplicates :
    LabelsOf
      (.tChoice TestLabel1
        (.tInteract TestLabel1 TClient Message (.tEnd RLabel.empty))
        (.tInteract TestLabel1 TServer Response (.tEnd RLabel.empty)))
      [TestLabel1, TestLabel1, RLabel.empty] ∧
    UniqueList [TestLabel1, TestLabel1, RLabel.empty] :=
  ⟨.tChoice (.tInteract .tEnd) (.tInteract .tEnd),
   .cons (.cons (.intro .intro) (.cons (.intro .intro) .nil))
     (.cons (.cons (.intro .intro) .nil) (.cons .nil .nil))⟩

/-- C3: the role-presence predicate used by projection is
over-approximated exactly as claimed: at a `TInteract` node it resolves
to `True` for every observer (whenever the continuation resolves at
all), at `TChoice` and `TPar` it is the boolean OR of the branches, and
`TEnd` contains no role. -/
theorem C3_containsRole_characterisation : ∀ me : RRole,
    (∀ lbl r h t b, ContainsRole (.tInteract lbl r h t) me b ↔
      b = true ∧ ∃ bt, ContainsRole t me bt) ∧
    (∀ lbl l r b, ContainsRole (.tChoice lbl l r) me b ↔
      ∃ bl br, ContainsRole l me bl ∧ ContainsRole r me br ∧ b = (bl || br)) ∧
    (∀ lbl l r d b, ContainsRole (.tPar lbl l r d) me b ↔
      ∃ bl br, ContainsRole l me bl ∧ ContainsRole r me br ∧ b = (bl || br)) ∧
    (∀ lbl b, ContainsRole (.tEnd lbl) me b ↔ b = false) := by
  intro me
  refine ⟨?_, ?_, ?_, ?_⟩
  · intro lbl r h t b
    constructor
    · intro hc
      cases hc with
      | interact ht => exact ⟨rfl, _, ht⟩
    · rintro ⟨rfl, bt, ht⟩
      exact .interact ht
  · intro lbl l r b
    constructor
    · intro hc
      cases hc with
      | choice hl hr => exact ⟨_, _, hl, hr, rfl⟩
    · rintro ⟨bl, br, hl, hr, rfl⟩
      exact .choice hl hr
  · intro lbl l r d b
    constructor
    · intro hc
      cases hc with
      | par hl hr => exact ⟨_, _, hl, hr, rfl⟩
    · rintro ⟨bl, br, hl, hr, rfl⟩
      exact .par hl hr
  · intro lbl b
    constructor
    · intro hc
      cases hc
      rfl
    · rintro rfl
      exact .tEnd

/-- C4: projecting `TPar{TestLabel1, TInteract{TestLabel2, Alice,
Message, TEnd{TestLabel3}}, TInteract{TestLabel2, Bob, Response,
TEnd{TestLabel3}}, FalseB}` onto Alice does NOT yield the raw left
projection `EpSend{TestLabel2, ...}`: because `ContainsRole` resolves to
`True` at every `TInteract`, Alice counts as present in both branches,
the (True, True) case of `ProjectParCase` fires, and the result is
`EpPar{TestLabel1, Alice, EpSend{...}, EpRecv{...}}` — the behaviour the
repo's own test `test_preserved_label_in_parallel` rejects. -/
theorem C4_par_projection_keeps_both_branches :
    ProjectRole Alice
      (.tPar TestLabel1
        (.tInteract TestLabel2 Alice Message (.tEnd TestLabel3))
        (.tInteract TestLabel2 Bob Response (.tEnd TestLabel3)) false)
      (.epPar TestLabel1 Alice
        (.epSend TestLabel2 Alice Message (.epEnd TestLabel3 Alice))
        (.epRecv TestLabel2 Alice Response (.epEnd TestLabel3 Alice))) ∧
    ¬ ProjectRole Alice
      (.tPar TestLabel1
        (.tInteract TestLabel2 Alice Message (.tEnd TestLabel3))
        (.tInteract TestLabel2 Bob Response (.tEnd TestLabel3)) false)
      (.epSend TestLabel2 Alice Message (.epEnd TestLabel3 Alice)) := by
  constructor
  · exact .parTT (.interact .tEnd) (.interact .tEnd)
      (.interactSend .tEnd) (.interactRecv (by decide) .tEnd)
  · intro hp
    cases hp with
    | parTF h₁ h₂ h₃ => cases h₂
    | parFT h₁ h₂ h₃ => cases h₁

/-- C5 counterexample: the claim predicts that projecting
`TRec{TestLabel1, TEnd{EmptyLabel}}` onto Alice passes through to the
body's projection `EpEnd{EmptyLabel, Alice}`, but no `ProjectRole` impl
exists for `TRec`, so nothing is derivable at this input. -/
theorem C5_counterexample_rec_not_passthrough :
    ¬ ProjectRole Alice (.tRec TestLabel1 (.tEnd RLabel.empty))
      (.epEnd RLabel.empty Alice) := by
  intro hp
  cases hp

/-- C5 (amended): projection is undefined on recursion nodes — for every
observer role and every `TRec{label, body}`, no local protocol is
derivable by `ProjectRole` (there is no impl for `TRec` in
src/protocol/transforms.rs), in particular it does not pass through to
the body's projection. -/
theorem C5_rec_projection_undefined :
    ∀ (me : RRole) (lbl : RLabel) (body : TSession) (out : EpSession),
      ¬ ProjectRole me (.tRec lbl body) out := by
  intro me lbl body out hp
  cases hp

/-- C6 counterexample: the claim says an `End` node contributes no roles,
but `RolesOf` is implemented only for `TEnd<IO>` = `TEnd<IO, EmptyLabel>`
(src/lib.rs:347-349), so role extraction is not derivable at all for an
`End` carrying the custom label `TestLabel3`. -/
theorem C6_counterexample_rolesOf_labelled_end :
    ¬ RolesOf (.tEnd TestLabel3) [] := by
  intro hr
  cases hr

/-- C6 (amended): role/label extraction is the claimed left-biased
preorder fold — `TInteract` contributes its role (resp. its label) before
the continuation's, `TChoice`/`TPar` contribute only their own label plus
the left branch's collection (the right branch must merely be
extractable for labels and is ignored entirely for roles), `TRec` passes
its own label plus its body's collections, and `TEnd` contributes its
own label as a singleton — except that role extraction at an `End` node
is defined only when the `End`'s label is `EmptyLabel` (and then
contributes no roles). -/
theorem C6_extraction_characterisation :
    (∀ lbl rs, RolesOf (.tEnd lbl) rs ↔ lbl = RLabel.empty ∧ rs = []) ∧
    (∀ lbl r h t rs, RolesOf (.tInteract lbl r h t) rs ↔
      ∃ ts, RolesOf t ts ∧ rs = r :: ts) ∧
    (∀ lbl l rb rs, RolesOf (.tChoice lbl l rb) rs ↔ RolesOf l rs) ∧
    (∀ lbl l rb d rs, RolesOf (.tPar lbl l rb d) rs ↔ RolesOf l rs) ∧
    (∀ lbl s rs, RolesOf (.tRec lbl s) rs ↔ RolesOf s rs) ∧
    (∀ lbl ls, LabelsOf (.tEnd lbl) ls ↔ ls = [lbl]) ∧
    (∀ lbl r h t ls, LabelsOf (.tInteract lbl r h t) ls ↔
      ∃ ts, LabelsOf t ts ∧ ls = lbl :: ts) ∧
    (∀ lbl l rb ls, LabelsOf (.tChoice lbl l rb) ls ↔
      ∃ tl tr, LabelsOf l tl ∧ LabelsOf rb tr ∧ ls = lbl :: tl) ∧
    (∀ lbl l rb d ls, LabelsOf (.tPar lbl l rb d) ls ↔
      ∃ tl tr, LabelsOf l tl ∧ LabelsOf rb tr ∧ ls = lbl :: tl) ∧
    (∀ lbl s ls, LabelsOf (.tRec lbl s) ls ↔
      ∃ ts, LabelsOf s ts ∧ ls = lbl :: ts) := by
  refine ⟨?_, ?_, ?_, ?_, ?_, ?_, ?_, ?_, ?_, ?_⟩
  · intro lbl rs
    constructor
    · intro hr
      cases hr
      exact ⟨rfl, rfl⟩
    · rintro ⟨rfl, rfl⟩
      exact .tEnd
  · intro lbl r h t rs
    constructor
    · intro hr
      cases hr with
      | tInteract ht => exact ⟨_, ht, rfl⟩
    · rintro ⟨ts, ht, rfl⟩
      exact .tInteract ht
  · intro lbl l rb rs
    constructor
    · intro hr
      cases hr with
      | tChoice hl => exact hl
    · exact .tChoice
  · intro lbl l rb d rs
    constructor
    · intro hr
      cases hr with
      | tPar hl => exact hl
    · exact .tPar
  · intro lbl s rs
    constructor
    · intro hr
      cases hr with
      | tRec hs => exact hs
    · exact .tRec
  · intro lbl ls
    constructor
    · intro hl
      cases hl
      rfl
    · rintro rfl
      exact .tEnd
  · intro lbl r h t ls
    constructor
    · intro hl
      cases hl with
      | tInteract ht => exact ⟨_, ht, rfl⟩
    · rintro ⟨ts, ht, rfl⟩
      exact .tInteract ht
  · intro lbl l rb ls
    constructor
    · intro hl
      cases hl with
      | tChoice hll hrr => exact ⟨_, _, hll, hrr, rfl⟩
    · rintro ⟨tl, tr, hll, hrr, rfl⟩
      exact .tChoice hll hrr
  · intro lbl l rb d ls
    constructor
    · intro hl
      cases hl with
      | tPar hll hrr => exact ⟨_, _, hll, hrr, rfl⟩
    · rintro ⟨tl, tr, hll, hrr, rfl⟩
      exact .tPar hll hrr
  · intro lbl s ls
    constructor
    · intro hl
      cases hl with
      | tRec hs => exact ⟨_, hs, rfl⟩
    · rintro ⟨ts, hs, rfl⟩
      exact .tRec hs

/-- C7: projecting a `TChoice` wraps rather than drops.  When the
observer is present only in the left branch, the projection is exactly
`EpChoice{label, observer, project(left), EpSkip{label, observer}}`,
with the choice's own label on both the wrapper and the skip; the mirror
holds when the observer is present only in the right branch; when it is
present in neither, the projection is `EpSkip{label, observer}`. -/
theorem C7_choice_projection_wraps : ∀ (me : RRole) (lbl : RLabel) (l r : TSession)
    (out : EpSession),
    (ContainsRole l me true → ContainsRole r me false →
      (ProjectRole me (.tChoice lbl l r) out ↔
        ∃ pl, ProjectRole me l pl ∧ out = .epChoice lbl me pl (.epSkip lbl me))) ∧
    (ContainsRole l me false → ContainsRole r me true →
      (ProjectRole me (.tChoice lbl l r) out ↔
        ∃ pr, ProjectRole me r pr ∧ out = .epChoice lbl me (.epSkip lbl me) pr)) ∧
    (ContainsRole l me false → ContainsRole r me false →
      (ProjectRole me (.tChoice lbl l r) out ↔ out = .epSkip lbl me)) := by
  intro me lbl l r out
  refine ⟨?_, ?_, ?_⟩
  · intro hL hR
    constructor
    · intro hp
      cases hp with
      | choiceTT h₁ h₂ h₃ h₄ => exact Bool.noConfusion (containsRole_det h₂ hR)
      | choiceTF h₁ h₂ h₃ => exact ⟨_, h₃, rfl⟩
      | choiceFT h₁ h₂ h₃ => exact Bool.noConfusion (containsRole_det h₁ hL)
      | choiceFF h₁ h₂ => exact Bool.noConfusion (containsRole_det h₁ hL)
    · rintro ⟨pl, hpl, rfl⟩
      exact .choiceTF hL hR hpl
  · intro hL hR
    constructor
    · intro hp
      cases hp with
      | choiceTT h₁ h₂ h₃ h₄ => exact Bool.noConfusion (containsRole_det h₁ hL)
      | choiceTF h₁ h₂ h₃ => exact Bool.noConfusion (containsRole_det h₁ hL)
      | choiceFT h₁ h₂ h₃ => exact ⟨_, h₃, rfl⟩
      | choiceFF h₁ h₂ => exact Bool.noConfusion (containsRole_det h₂ hR)
    · rintro ⟨pr, hpr, rfl⟩
      exact .choiceFT hL hR hpr
  · intro hL hR
    constructor
    · intro hp
      cases hp with
      | choiceTT h₁ h₂ h₃ h₄ => exact Bool.noConfusion (containsRole_det h₁ hL)
      | choiceTF h₁ h₂ h₃ => exact Bool.noConfusion (containsRole_det h₁ hL)
      | choiceFT h₁ h₂ h₃ => exact Bool.noConfusion (containsRole_det h₂ hR)
      | choiceFF h₁ h₂ => rfl
    · rintro rfl
      exact .choiceFF hL hR

/-- C7 witness: a concrete instance of the present-only-left case — for
the choice `TChoice{TestLabel1, TInteract{TestLabel2, Alice, Message,
TEnd{TestLabel3}}, TEnd{TestLabel3}}`, Alice is present in the left
branch only, and her projection is the `EpChoice` wrapping her left
projection with an `EpSkip` that carries the choice's label. -/
theorem C7_choice_projection_wraps_witness :
    ProjectRole Alice
      (.tChoice TestLabel1
        (.tInteract TestLabel2 Alice Message (.tEnd TestLabel3))
        (.tEnd TestLabel3))
      (.epChoice TestLabel1 Alice
        (.epSend TestLabel2 Alice Message (.epEnd TestLabel3 Alice))
        (.epSkip TestLabel1 Alice)) :=
  ((C7_choice_projection_wraps Alice TestLabel1
      (.tInteract TestLabel2 Alice Message (.tEnd TestLabel3))
      (.tEnd TestLabel3) _).1
    (.interact .tEnd) .tEnd).mpr ⟨_, .interactSend .tEnd, rfl⟩

/-- C8: for a `TPar` with label `EmptyLabel`, `AssertDisjoint` from an
unverified node succeeds only when role extraction resolves on both
branches and the `Disjoint` check holds in both directions, and then the
output is the same node with its brand set to `TrueB`; conversely those
premises suffice; re-verifying an already-verified node is the identity;
and the verifying impl is the only path that turns `FalseB` into
`TrueB`. -/
theorem C8_assertDisjoint_spec : ∀ (l r : TSession) (out : TSession),
    (AssertDisjoint (.tPar RLabel.empty l r false) out →
      out = .tPar RLabel.empty l r true ∧
        ∃ rl rr, RolesOf l rl ∧ RolesOf r rr ∧ Disjoint rl rr ∧ Disjoint rr rl) ∧
    (∀ rl rr, RolesOf l rl → RolesOf r rr → Disjoint rl rr → Disjoint rr rl →
      AssertDisjoint (.tPar RLabel.empty l r false) (.tPar RLabel.empty l r true)) ∧
    (AssertDisjoint (.tPar RLabel.empty l r true) out ↔
      out = .tPar RLabel.empty l r true) ∧
    (∀ g, AssertDisjoint g out → out = g ∨
      ∃ l₂ r₂, g = .tPar RLabel.empty l₂ r₂ false ∧
        out = .tPar RLabel.empty l₂ r₂ true) := by
  intro l r out
  refine ⟨?_, ?_, ?_, ?_⟩
  · intro ha
    cases ha with
    | verify hrl hrr d₁ d₂ => exact ⟨rfl, _, _, hrl, hrr, d₁, d₂⟩
  · intro rl rr hrl hrr d₁ d₂
    exact .verify hrl hrr d₁ d₂
  · constructor
    · intro ha
      cases ha
      rfl
    · rintro rfl
      exact .already
  · intro g ha
    cases ha with
    | verify hrl hrr d₁ d₂ => exact Or.inr ⟨_, _, rfl, rfl⟩
    | already => exact Or.inl rfl

/-- C9: `AssertDisjoint` has impls only for `TPar` nodes labelled
`EmptyLabel`, so an unverified `TPar` carrying any other label can never
be verified — no output is derivable — even when the branches' role
sets are disjoint. -/
theorem C9_assertDisjoint_requires_emptyLabel :
    ∀ (lbl : RLabel) (l r : TSession) (out : TSession), lbl ≠ RLabel.empty →
      ¬ AssertDisjoint (.tPar lbl l r false) out := by
  intro lbl l r out hne ha
  cases ha with
  | verify hrl hrr d₁ d₂ => exact hne rfl

/-- C9 witness: the concrete unverified `TPar{TestLabel1, TEnd, TEnd,
FalseB}` — whose branches trivially have disjoint (empty) role sets —
cannot be rebranded, because its label is not `EmptyLabel`. -/
theorem C9_assertDisjoint_requires_emptyLabel_witness :
    ¬ AssertDisjoint
      (.tPar TestLabel1 (.tEnd RLabel.empty) (.tEnd RLabel.empty) false)
      (.tPar TestLabel1 (.tEnd RLabel.empty) (.tEnd RLabel.empty) true) :=
  C9_assertDisjoint_requires_emptyLabel TestLabel1 (.tEnd RLabel.empty)
    (.tEnd RLabel.empty) (.tPar TestLabel1 (.tEnd RLabel.empty) (.tEnd RLabel.empty) true)
    (by decide)

/-- C10: the n-ary builders fold a list right-to-left into nested binary
nodes, labelling every introduced node `EmptyLabel` and terminating in
`TEnd{EmptyLabel}` (with the `FalseB` brand at every `TPar` level); in
particular a one-element list yields `TChoice{EmptyLabel, P,
TEnd{EmptyLabel}}` (resp. `TPar{EmptyLabel, P, TEnd{EmptyLabel},
FalseB}`), which is never `P` itself. -/
theorem C10_builders_append_end :
    (∀ l, toTChoice l =
      List.foldr (fun p acc => TSession.tChoice RLabel.empty p acc)
        (TSession.tEnd RLabel.empty) l) ∧
    (∀ l, toTPar l =
      List.foldr (fun p acc => TSession.tPar RLabel.empty p acc false)
        (TSession.tEnd RLabel.empty) l) ∧
    (∀ p, toTChoice [p] = .tChoice RLabel.empty p (.tEnd RLabel.empty) ∧
      toTChoice [p] ≠ p) ∧
    (∀ p, toTPar [p] = .tPar RLabel.empty p (.tEnd RLabel.empty) false ∧
      toTPar [p] ≠ p) := by
  have hc : ∀ l, toTChoice l =
      List.foldr (fun p acc => TSession.tChoice RLabel.empty p acc)
        (TSession.tEnd RLabel.empty) l := by
    intro l
    induction l with
    | nil => rfl
    | cons h t ih => simp [toTChoice, ih]
  have hp : ∀ l, toTPar l =
      List.foldr (fun p acc => TSession.tPar RLabel.empty p acc false)
        (TSession.tEnd RLabel.empty) l := by
    intro l
    induction l with
    | nil => rfl
    | cons h t ih => simp [toTPar, ih]
  refine ⟨hc, hp, ?_, ?_⟩
  · intro p
    refine ⟨rfl, ?_⟩
    intro he
    have hs := congrArg sizeOf he
    simp [toTChoice] at hs
    omega
  · intro p
    refine ⟨rfl, ?_⟩
    intro he
    have hs := congrArg sizeOf he
    simp [toTPar] at hs
    omega

end Besedarium
